import Mathlib

/-!
Verification development for the `conventionalrp` core:
a shallow embedding of the segment parser (`core/parser.py`) and the
condition-action rule engine (`core/rules.py`, `core/processor.py`),
together with theorems settling the behavioural claims about them.

Python strings are modelled as `List Char` (a Python `str` is a sequence of
code points).  Python dicts are modelled as ordered association lists with
unique keys: insertion of a fresh key appends, insertion of an existing key
replaces in place, matching CPython's ordered-dict semantics.
-/

namespace CRP

/-! ### Python dict operations (ordered association lists) -/

/-- `d.get(k)`: value at the first occurrence of key `k`, if any. -/
def dget {α : Type} : List (String × α) → String → Option α
  | [], _ => none
  | (k', v') :: rest, k => if k' = k then some v' else dget rest k

/-- `k in d`. -/
def dhas {α : Type} (r : List (String × α)) (k : String) : Bool :=
  (dget r k).isSome

/-- `d[k] = v`: replace the value at an existing key in place, otherwise
append the new binding at the end (CPython dict update order). -/
def dset {α : Type} : List (String × α) → String → α → List (String × α)
  | [], k, v => [(k, v)]
  | (k', v') :: rest, k, v =>
      if k' = k then (k, v) :: rest else (k', v') :: dset rest k v

/-- `del d[k]`: remove the binding of key `k` (keys are unique). -/
def ddel {α : Type} : List (String × α) → String → List (String × α)
  | [], _ => []
  | (k', v') :: rest, k => if k' = k then rest else (k', v') :: ddel rest k

/-! ### Python string helpers -/

/-- `str.strip()`: remove leading and trailing whitespace. -/
def pyStrip (t : List Char) : List Char :=
  ((t.dropWhile Char.isWhitespace).reverse.dropWhile Char.isWhitespace).reverse

/-- `needle in hay` for Python strings: contiguous-substring test. -/
def isSubstr (needle hay : List Char) : Bool :=
  (List.range (hay.length + 1)).any fun i => needle.isPrefixOf (hay.drop i)

/-! ### Segment parser data model (`core/parser.py`)

A compiled regex is modelled abstractly by its `re.search` behaviour: a
function from the text to an optional match (span plus the captures of
groups 1..N, a non-participating group being `none`).  Following §9 of the
design notes, a pattern is required to produce non-empty in-bounds match
spans (zero-width matches would make `_parse_line_content` recurse without
progress); this documented precondition is carried as the field `wf`. -/

/-- The data of a Python `re.Match`: span `[mstart, mstop)` over the
searched text and the list `match.groups()` (groups `1..N`). -/
structure RMatch where
  mstart : Nat
  mstop : Nat
  groups : List (Option (List Char))
  deriving Repr

/-- A compiled pattern, i.e. its `re.search` behaviour, restricted to
patterns whose matches are non-empty and in bounds. -/
structure Pattern where
  search : List Char → Option RMatch
  wf : ∀ t m, search t = some m → m.mstart < m.mstop ∧ m.mstop ≤ t.length

/-- The `match_type` field of a content rule. -/
inductive MatchKind where
  | enclosedM
  | prefixM
  | suffixM
  deriving DecidableEq, Repr

/-- A content rule: the dict
`{type, match_type, patterns, groups, priority}` of the rule file.
`priority` is optional because `_parse_line_content` reads it with
`rule.get("priority", 0)`. -/
structure ContentRule where
  rtype : String
  matchKind : MatchKind
  patterns : List Pattern
  groups : List String
  priority : Option Int

/-- `rule.get("priority", 0)`. -/
def crPriority (r : ContentRule) : Int :=
  r.priority.getD 0

/-! ### Stable descending sort

`sorted(..., key=..., reverse=True)` and `list.sort(key=..., reverse=True)`
are stable: elements with equal keys keep their original relative order.
Modelled as insertion sort that inserts an earlier element in front of the
first element whose key is less than or equal to its own. -/

def insertDescBy {α : Type} (key : α → Int) (x : α) : List α → List α
  | [] => [x]
  | y :: ys => if key y ≤ key x then x :: y :: ys else y :: insertDescBy key x ys

def sortDescBy {α : Type} (key : α → Int) (l : List α) : List α :=
  l.foldr (insertDescBy key) []

/-! ### The scan for the winning (rule, pattern) pair -/

/-- Scan one rule's patterns in declared order; first match wins
(the inner `for pattern in rule["patterns"]` loop). -/
def findPatMatch : List Pattern → List Char → Option RMatch
  | [], _ => none
  | p :: ps, t =>
      match p.search t with
      | some m => some m
      | none => findPatMatch ps t

/-- Scan rules in (already sorted) order; the first rule one of whose
patterns matches wins (the outer `for rule in content_rules` loop). -/
def findRuleMatch : List ContentRule → List Char → Option (ContentRule × RMatch)
  | [], _ => none
  | r :: rs, t =>
      match findPatMatch r.patterns t with
      | some m => some (r, m)
      | none => findRuleMatch rs t

/-! ### Building a segment dict -/

/-- A produced segment: the Python dict
`{"type": ..., "content": ..., group fields...}` with string values. -/
abbrev SegDict := List (String × List Char)

/-- `match.group(i+1).strip() if match.group(i+1) else ""`:
a non-participating (`None`) or empty capture yields `""`. -/
def groupVal (g : Option (List Char)) : List Char :=
  match g with
  | none => []
  | some s => if s = [] then [] else pyStrip s

/-- The loop `for i, group in enumerate(rule.get("groups", [])):
if i + 1 <= len(match.groups()): entry[group] = ...` — the zip truncates to
the shorter list exactly as the bound check does. -/
def addGroupFields (entry : SegDict) (names : List String)
    (gs : List (Option (List Char))) : SegDict :=
  (names.zip gs).foldl (fun e ng => dset e ng.1 (groupVal ng.2)) entry

/-- The segment dict built by the three `_handle_*_match` helpers. -/
def mkSegEntry (r : ContentRule) (m : RMatch) (content : List Char) : SegDict :=
  addGroupFields [("type", r.rtype.toList), ("content", content)] r.groups m.groups

/-! ### `_parse_line_content`

Fuel-indexed so that the definition is structurally recursive and reduces by
evaluation; `parseLineContent` supplies `text.length + 1` fuel, which is
proved sufficient below (every recursive call is on a strictly shorter
text, thanks to `Pattern.wf`).  The three match-kind branches inline
`_handle_enclosed_match`, `_handle_prefix_match` and `_handle_suffix_match`,
which differ only in slicing and which side is recursed into. -/

/-- One step of `_parse_line_content`, with `rec` standing for the
recursive call made by the `_handle_*_match` helpers: empty text returns
no segments; otherwise the sorted scan picks the winning (rule, pattern)
pair and the match-kind branch slices, strips and recurses. -/
def plcStep (rules : List ContentRule) (rec : List Char → List SegDict)
    (t : List Char) : List SegDict :=
  if t = [] then []
  else
    match findRuleMatch (sortDescBy crPriority rules) t with
    | none => [[("type", "unknown".toList), ("content", t)]]
    | some (r, m) =>
      match r.matchKind with
      | .enclosedM =>
          (if pyStrip (t.take m.mstart) = [] then []
           else rec (pyStrip (t.take m.mstart)))
            ++ [mkSegEntry r m (pyStrip ((t.drop m.mstart).take (m.mstop - m.mstart)))]
            ++ (if pyStrip (t.drop m.mstop) = [] then []
                else rec (pyStrip (t.drop m.mstop)))
      | .prefixM =>
          (if pyStrip (t.take m.mstart) = [] then []
           else rec (pyStrip (t.take m.mstart)))
            ++ [mkSegEntry r m (pyStrip (t.drop m.mstart))]
      | .suffixM =>
          [mkSegEntry r m (pyStrip (t.take m.mstop))]
            ++ (if pyStrip (t.drop m.mstop) = [] then []
                else rec (pyStrip (t.drop m.mstop)))

def parseLineContentF (rules : List ContentRule) : Nat → List Char → List SegDict
  | 0, _ => []
  | fuel + 1, t => plcStep rules (parseLineContentF rules fuel) t

/-- `Parser._parse_line_content`. -/
def parseLineContent (rules : List ContentRule) (t : List Char) : List SegDict :=
  parseLineContentF rules (t.length + 1) t

/-! ### A literal pattern

`re.search` with a pattern that is a plain literal finds the leftmost
occurrence of that literal; it exposes no capture groups. -/

/-- Index of the leftmost occurrence of `p` in `t`. -/
def litFind (p t : List Char) : Option Nat :=
  (List.range (t.length + 1)).find? fun i => p.isPrefixOf (t.drop i)

/-- A non-empty literal pattern as a compiled `Pattern`. -/
def litPattern (p : List Char) (hp : p ≠ []) : Pattern where
  search t := (litFind p t).map fun i => ⟨i, i + p.length, []⟩
  wf t m h := by
    simp only [Option.map_eq_some'] at h
    obtain ⟨i, hfind, rfl⟩ := h
    simp only [litFind] at hfind
    have hpre := List.find?_some hfind
    have hmem : i ∈ List.range (t.length + 1) := List.mem_of_find?_eq_some hfind
    have hi : i ≤ t.length := Nat.lt_succ_iff.mp (List.mem_range.mp hmem)
    have hlen : p.length ≤ (t.drop i).length :=
      (List.isPrefixOf_iff_prefix.mp hpre).length_le
    refine ⟨?_, ?_⟩
    · show i < i + p.length
      have : 0 < p.length := List.length_pos.mpr hp
      omega
    · show i + p.length ≤ t.length
      simp only [List.length_drop] at hlen
      omega

/-! ### Rule engine data model (`core/rules.py`)

Record values are Python objects.  A mutable list stored in a record (the
`tags` list that `add_tag` appends to) is modelled as a reference `vRef`
into an explicit heap of list cells, so that the sharing created by the
shallow `data.copy()` is observable.  `vList` is an immutable list literal
as it appears inside a rule specification; `vRat` stands for a Python float
(only ever produced by the `float` transform). -/

inductive Value where
  | vStr : String → Value
  | vInt : Int → Value
  | vRat : ℚ → Value
  | vBool : Bool → Value
  | vNone : Value
  | vList : List Value → Value
  | vRef : Nat → Value

/-- The heap of mutable list cells; `vRef a` points at cell `a`. -/
abbrev Heap := List (List Value)

def heapGetCell (h : Heap) (a : Nat) : List Value := h.getD a []

def heapSetCell (h : Heap) (a : Nat) (c : List Value) : Heap := h.set a c

/-- A record (`Dict[str, Any]`). -/
abbrev Record := List (String × Value)

/-- `data.get(field)`: Python returns `None` for an absent key, which the
condition code then treats uniformly, so the lookup collapses to `vNone`. -/
def dgetV (r : Record) (k : String) : Value :=
  (dget r k).getD .vNone

/- Python `==` on the modelled values.  Numeric cross-type equality
(`True == 1`, `1 == 1.0`) is included; equality between a heap reference
and a list literal would be a deep elementwise comparison in Python and is
not modelled (no claim compares lists for equality), references compare by
identity. -/
mutual
def pyEq : Value → Value → Bool
  | .vStr a, .vStr b => a = b
  | .vInt a, .vInt b => a = b
  | .vRat a, .vRat b => a = b
  | .vBool a, .vBool b => a = b
  | .vNone, .vNone => true
  | .vInt a, .vBool b => a = (if b then 1 else 0)
  | .vBool a, .vInt b => (if a then (1 : Int) else 0) = b
  | .vRat a, .vInt b => a = (b : ℚ)
  | .vInt a, .vRat b => (a : ℚ) = b
  | .vRat a, .vBool b => a = (if b then (1 : ℚ) else 0)
  | .vBool a, .vRat b => (if a then (1 : ℚ) else 0) = b
  | .vList a, .vList b => pyEqL a b
  | .vRef a, .vRef b => a = b
  | _, _ => false
def pyEqL : List Value → List Value → Bool
  | [], [] => true
  | x :: xs, y :: ys => pyEq x y && pyEqL xs ys
  | _, _ => false
end

/-- Python truthiness of a record value. -/
def pyTruthy (h : Heap) : Value → Bool
  | .vStr s => !s.isEmpty
  | .vInt n => n != 0
  | .vRat q => q != 0
  | .vBool b => b
  | .vNone => false
  | .vList l => !l.isEmpty
  | .vRef a => !(heapGetCell h a).isEmpty

/-- `str(value)`.  List rendering (`str` of a list shows its elements) is
left as `""`: no claim stringifies a list-valued field, and the condition
code only reaches `str` for truthy scalars in the claims at hand.  Float
repr is likewise unexercised. -/
def pyStr : Value → String
  | .vStr s => s
  | .vInt n => toString n
  | .vRat _ => ""
  | .vBool b => if b then "True" else "False"
  | .vNone => "None"
  | .vList _ => ""
  | .vRef _ => ""

/-- Decimal digit accumulator. -/
def digitsToNat (l : List Char) : Nat :=
  l.foldl (fun a c => a * 10 + (c.toNat - 48)) 0

/-- Unsigned `float()` literal: digits with at most one decimal point
(exponent, `inf` and `nan` forms are not modelled; no claim uses them). -/
def parseUDec (s : List Char) : Option ℚ :=
  match s.splitOn '.' with
  | [d] =>
      if d ≠ [] ∧ d.all Char.isDigit then some ((digitsToNat d : ℚ)) else none
  | [a, b] =>
      if (a ++ b) ≠ [] ∧ a.all Char.isDigit ∧ b.all Char.isDigit then
        some ((digitsToNat a : ℚ) + (digitsToNat b : ℚ) / ((10 : ℚ) ^ b.length))
      else none
  | _ => none

/-- `float(<str>)`: surrounding whitespace stripped, optional sign. -/
def pyParseFloat (s0 : List Char) : Option ℚ :=
  let s := pyStrip s0
  match s with
  | '-' :: rest => (parseUDec rest).map (fun q => -q)
  | '+' :: rest => parseUDec rest
  | _ => parseUDec s

/-- `float(value)`: `none` models the `ValueError`/`TypeError` that the
condition code catches (`float(None)` and `float(<list>)` raise). -/
def pyFloat : Value → Option ℚ
  | .vInt n => some (n : ℚ)
  | .vRat q => some q
  | .vBool b => some (if b then 1 else 0)
  | .vStr s => pyParseFloat s.toList
  | _ => none

/-- `int(<str>)`: whitespace stripped, optional sign, decimal digits. -/
def parseIntStr (s0 : List Char) : Option Int :=
  let s := pyStrip s0
  match s with
  | '-' :: rest =>
      if rest ≠ [] ∧ rest.all Char.isDigit then some (-(digitsToNat rest : Int)) else none
  | '+' :: rest =>
      if rest ≠ [] ∧ rest.all Char.isDigit then some ((digitsToNat rest : Int)) else none
  | _ => if s ≠ [] ∧ s.all Char.isDigit then some ((digitsToNat s : Int)) else none

/-- `int()` truncates a float toward zero. -/
def ratTrunc (q : ℚ) : Int :=
  if 0 ≤ q then Rat.floor q else -Rat.floor (-q)

/-- `len(x) if hasattr(x, "__len__") else 0`. -/
def pyLen (h : Heap) : Value → Nat
  | .vStr s => s.length
  | .vList l => l.length
  | .vRef a => (heapGetCell h a).length
  | _ => 0

/-- `Rule._apply_transform`: the named pure functions, a failure of the
function (a failed `int`/`float` cast) leaving the value unchanged.
`upper`/`lower` are modelled ASCII-only. -/
def applyTransform (h : Heap) (x : Value) : String → Value
  | "upper" => .vStr (pyStr x).toUpper
  | "lower" => .vStr (pyStr x).toLower
  | "strip" => .vStr (pyStrip (pyStr x).toList).asString
  | "int" =>
      match x with
      | .vInt n => .vInt n
      | .vBool b => .vInt (if b then 1 else 0)
      | .vRat q => .vInt (ratTrunc q)
      | .vStr s =>
          match parseIntStr s.toList with
          | some n => .vInt n
          | none => x
      | _ => x
  | "float" =>
      match pyFloat x with
      | some q => .vRat q
      | none => x
  | "len" => .vInt ((pyLen h x : Int))
  | _ => x

/-! ### Conditions -/

/-- The condition attached to one field: either a bare literal (the
condition value is not itself a dict) or a `{type, value, pattern}` spec.
The third component models `Rule._compiled_patterns[field]`: it is the
compiled search predicate, present exactly when the spec had type
`"matches"` with a truthy pattern (the eager precompilation done in
`Rule.__init__`). -/
inductive FieldCond where
  | bare : Value → FieldCond
  | spec : Option String → Option Value → Option (String → Bool) → FieldCond

/-- `Rule.condition`: a dict from field names to conditions, or some
non-dict object (which never matches). -/
inductive CondObj where
  | nonDict : Value → CondObj
  | cdict : List (String × FieldCond) → CondObj

/-- `Rule._check_field_condition`.  The `Except` layer carries the
`TypeError` that Python raises when a truthy value is tested with
`contains`/`starts_with`/`ends_with` against a non-string operand; every
other branch is total. -/
def checkFieldCond (h : Heap) (data : Record) (field : String) (c : FieldCond) :
    Except String Bool :=
  let value := dgetV data field
  match c with
  | .bare lit => .ok (pyEq value lit)
  | .spec ctype cval cpat =>
    let expected := cval.getD .vNone
    match ctype with
    | some "equals" => .ok (pyEq value expected)
    | some "contains" =>
        if pyTruthy h value then
          match expected with
          | .vStr s => .ok (isSubstr s.toList (pyStr value).toList)
          | _ => .error "TypeError"
        else .ok false
    | some "matches" =>
        match cpat with
        | some sf => .ok (if pyTruthy h value then sf (pyStr value) else false)
        | none => .ok false
    | some "starts_with" =>
        if pyTruthy h value then
          match expected with
          | .vStr s => .ok (s.toList.isPrefixOf (pyStr value).toList)
          | _ => .error "TypeError"
        else .ok false
    | some "ends_with" =>
        if pyTruthy h value then
          match expected with
          | .vStr s => .ok (s.toList.isSuffixOf (pyStr value).toList)
          | _ => .error "TypeError"
        else .ok false
    | some "in_list" =>
        match expected with
        | .vList l => .ok (l.any (fun e => pyEq value e))
        | _ => .ok false
    | some "greater_than" =>
        .ok (match pyFloat value, pyFloat expected with
             | some a, some b => decide (b < a)
             | _, _ => false)
    | some "less_than" =>
        .ok (match pyFloat value, pyFloat expected with
             | some a, some b => decide (a < b)
             | _, _ => false)
    | _ => .ok false

/-! ### Rules and actions -/

/-- The recognised keys of an action dict (`self.action.get(...)`). -/
structure ActionDict where
  atype : Option String
  afield : Option String
  avalue : Option Value
  afunc : Option String
  atag : Option Value
  asource : Option String
  atarget : Option String

/-- `Rule.action`: an action dict or some non-dict object (no-op). -/
inductive ActionObj where
  | nonDict : Value → ActionObj
  | adict : ActionDict → ActionObj

/-- A generic rule (`Rule.__init__`). -/
structure RuleM where
  name : String
  condition : CondObj
  action : ActionObj
  priority : Int

/-- The conjunction loop inside `Rule.matches`: first failing field stops,
a raising condition propagates. -/
def condsGo (h : Heap) (data : Record) : List (String × FieldCond) → Except String Bool
  | [] => .ok true
  | (f, c) :: rest =>
      match checkFieldCond h data f c with
      | .error e => .error e
      | .ok false => .ok false
      | .ok true => condsGo h data rest

/-- `Rule.matches`: a non-dict condition never matches. -/
def ruleMatches (rule : RuleM) (h : Heap) (data : Record) : Except String Bool :=
  match rule.condition with
  | .nonDict _ => .ok false
  | .cdict fields => condsGo h data fields

/-- `if field:` for an optional string-valued key. -/
def strTruthy : Option String → Bool
  | some s => !s.isEmpty
  | none => false

/-- The `if tag not in result["tags"]: result["tags"].append(tag)` step of
`add_tag`, once the `tags` key exists.  A `vRef` (the normal case) appends
through the shared heap cell; a string value does Python's substring
membership test and then fails on `.append`; any other value fails the
membership test with a `TypeError` (a `vList` literal, where Python would
append to the shared literal object, is not modelled — no claim stores a
list literal under `tags`). -/
def tagsAppend (result : Record) (h : Heap) (tag : Value) :
    Except String (Record × Heap) :=
  match dget result "tags" with
  | some (.vRef addr) =>
      if (heapGetCell h addr).any (fun e => pyEq e tag) then .ok (result, h)
      else .ok (result, heapSetCell h addr (heapGetCell h addr ++ [tag]))
  | some (.vStr s) =>
      match tag with
      | .vStr ts =>
          if isSubstr ts.toList s.toList then .ok (result, h)
          else .error "AttributeError"
      | _ => .error "TypeError"
  | _ => .error "TypeError"

/-- `Rule.apply`: `result = data.copy()` is a shallow copy — the top-level
mapping is fresh but every value, including a `vRef` to a tags list, is
shared with the argument.  The `Except` layer carries the
`TypeError`/`AttributeError` that `add_tag` raises when `result["tags"]`
is not a list (for a string it first does a substring membership test); a
`vList`-valued `tags` (where Python would append to the shared literal) is
not modelled and also reports an error, which no claim exercises. -/
def ruleApply (rule : RuleM) (data : Record) (h : Heap) : Except String (Record × Heap) :=
  match rule.action with
  | .nonDict _ => .ok (data, h)
  | .adict a =>
    match a.atype with
    | some "set_field" =>
        match a.afield with
        | some f =>
            if f.isEmpty then .ok (data, h)
            else .ok (dset data f (a.avalue.getD .vNone), h)
        | none => .ok (data, h)
    | some "add_field" =>
        match a.afield with
        | some f =>
            if !f.isEmpty && !dhas data f then
              .ok (dset data f (a.avalue.getD .vNone), h)
            else .ok (data, h)
        | none => .ok (data, h)
    | some "remove_field" =>
        match a.afield with
        | some f =>
            if !f.isEmpty && dhas data f then .ok (ddel data f, h)
            else .ok (data, h)
        | none => .ok (data, h)
    | some "transform" =>
        match a.afield, a.afunc with
        | some f, some fn =>
            if !f.isEmpty && dhas data f && !fn.isEmpty then
              .ok (dset data f (applyTransform h (dgetV data f) fn), h)
            else .ok (data, h)
        | _, _ => .ok (data, h)
    | some "add_tag" =>
        match a.atag with
        | none => .ok (data, h)
        | some tag =>
          if pyTruthy h tag then
            if dhas data "tags" then tagsAppend data h tag
            else tagsAppend (dset data "tags" (.vRef h.length)) (h ++ [[]]) tag
          else .ok (data, h)
    | some "copy_field" =>
        match a.asource, a.atarget with
        | some src, some tgt =>
            if !src.isEmpty && !tgt.isEmpty && dhas data src then
              .ok (dset data tgt (dgetV data src), h)
            else .ok (data, h)
        | _, _ => .ok (data, h)
    | _ => .ok (data, h)

/-! ### The engine loop (`RuleEngine.process`) -/

/-- The `for rule in self.rules` loop over the already sorted rule list:
first match stops the scan unless `apply_all`, in which case later rules
see the progressively mutated record. -/
def processGo : List RuleM → Record → Bool → Heap → Except String (Record × Heap)
  | [], r, _, h => .ok (r, h)
  | rule :: rest, r, aa, h =>
      match ruleMatches rule h r with
      | .error e => .error e
      | .ok false => processGo rest r aa h
      | .ok true =>
          match ruleApply rule r h with
          | .error e => .error e
          | .ok rh => if aa then processGo rest rh.1 aa rh.2 else .ok rh

/-- `RuleEngine.process`: `_ensure_sorted` (stable descending sort by
priority) followed by the scan; `result = data.copy()` is the same shallow
top-level copy as in `Rule.apply`. -/
def engineProcess (rules : List RuleM) (data : Record) (applyAll : Bool) (h : Heap) :
    Except String (Record × Heap) :=
  processGo (sortDescBy (fun r => r.priority) rules) data applyAll h

/-! ### `Processor.process_single_token` (`core/processor.py`)

Custom processors are arbitrary callables; they are modelled as pure
record transformers (their own exceptions are caught and swallowed by the
surrounding `try`, which no claim exercises). -/

/-- The state of the token after the rule engine and the custom processors,
i.e. `process_single_token` up to (not including) the final timestamp
check. -/
def afterRulesProcs (rules : List RuleM) (procs : List (Record → Record))
    (token : Record) (aa : Bool) (h : Heap) : Except String (Record × Heap) :=
  match (if rules.length > 0 then engineProcess rules token aa h else .ok (token, h)) with
  | .error e => .error e
  | .ok ph => .ok (procs.foldl (fun r f => f r) ph.1, ph.2)

/-- `Processor.process_single_token`. -/
def processSingleToken (rules : List RuleM) (procs : List (Record → Record))
    (token : Record) (aa : Bool) (h : Heap) : Except String (Record × Heap) :=
  match (if rules.length > 0 then engineProcess rules token aa h else .ok (token, h)) with
  | .error e => .error e
  | .ok ph =>
      let p2 := procs.foldl (fun r f => f r) ph.1
      .ok ((if dhas p2 "timestamp" then dset p2 "processed" (.vBool true) else p2), ph.2)

/-! ### `Parser._match_metadata` inner extraction loop

`metadata[key] = match.group(i + 1).strip()` has no `None` guard: a capture
group that did not participate raises `AttributeError` (`None` has no
`.strip`).  Group names beyond the pattern's capture count are skipped by
the `i + 1 <= len(match.groups())` bound, which the zip models. -/
def buildMetadataGo (md : List (String × List Char)) :
    List (String × Option (List Char)) → Except String (List (String × List Char))
  | [] => .ok md
  | ng :: rest =>
      match ng.2 with
      | some s => buildMetadataGo (dset md ng.1 (pyStrip s)) rest
      | none => .error "AttributeError"

def buildMetadata (names : List String) (gs : List (Option (List Char))) :
    Except String (List (String × List Char)) :=
  buildMetadataGo [("type", "metadata".toList)] (names.zip gs)

/-! ### Concrete instances used in witnesses and counterexamples -/

/-- Priority-10 rule matching the literal `bar` (spec §8 example). -/
def ruleA : ContentRule :=
  ⟨"A", .enclosedM, [litPattern "bar".toList (by decide)], [], some 10⟩

/-- Priority-90 rule matching the literal `baz` (spec §8 example). -/
def ruleB : ContentRule :=
  ⟨"B", .enclosedM, [litPattern "baz".toList (by decide)], [], some 90⟩

def fooText : List Char := "foobarbaz".toList

/-- An enclosed rule matching the literal `[a]`. -/
def ruleEncl : ContentRule :=
  ⟨"E", .enclosedM, [litPattern "[a]".toList (by decide)], [], some 10⟩

def exText : List Char := "x [a]".toList

/-- The search behaviour of a pattern exposing exactly one capture group:
on the text `xy` it matches the whole text and captures `x`. -/
def cPat5Search (t : List Char) : Option RMatch :=
  if t = "xy".toList then some ⟨0, 2, [some ['x']]⟩ else none

/-- That behaviour packaged as a compiled pattern. -/
def cPat5 : Pattern where
  search := cPat5Search
  wf t m h := by
    unfold cPat5Search at h
    split at h
    · rename_i ht
      injection h with h2
      subst h2
      subst ht
      decide
    · exact Option.noConfusion h

/-- A content rule with two group names over the one-capture pattern. -/
def ruleC5 : ContentRule := ⟨"R", .enclosedM, [cPat5], ["a", "b"], some 10⟩

/-- The empty condition dict: matches everything. -/
def alwaysCond : CondObj := .cdict []

/-- `{"type": "add_tag", "tag": "x"}`. -/
def tagAction : ActionObj :=
  .adict ⟨some "add_tag", none, none, none, some (.vStr "x"), none, none⟩

def tagRule : RuleM := ⟨"tagger", alwaysCond, tagAction, 50⟩

/-- A record whose `tags` key already holds a (heap-allocated) list. -/
def c2Rec : Record := [("tags", .vRef 0)]

/-- The heap with that one, initially empty, tags list. -/
def c2Heap : Heap := [[]]

/-- `condition={"type": "test"}` (a bare-literal field condition). -/
def typeTestCond : CondObj := .cdict [("type", .bare (.vStr "test"))]

/-- `{"type": "set_field", "field": "processed_by", "value": v}`. -/
def setPBy (v : String) : ActionObj :=
  .adict ⟨some "set_field", some "processed_by", some (.vStr v), none, none, none, none⟩

def ruleP10 : RuleM := ⟨"r10", typeTestCond, setPBy "p10", 10⟩
def ruleP50 : RuleM := ⟨"r50", typeTestCond, setPBy "p50", 50⟩
def ruleP100 : RuleM := ⟨"r100", typeTestCond, setPBy "p100", 100⟩

def c4Rec : Record := [("type", .vStr "test")]

/-- A rule that sets a `timestamp` field on every record. -/
def tsRule : RuleM :=
  ⟨"adds_ts", alwaysCond,
    .adict ⟨some "set_field", some "timestamp", some (.vInt 1), none, none, none, none⟩, 50⟩

/-- `{"type": "contains", "value": ""}`. -/
def containsEmpty : FieldCond := .spec (some "contains") (some (.vStr "")) none

/-- A record whose field `f` is present but holds the empty string. -/
def c6Rec : Record := [("f", .vStr "")]

/-! ### Spec-side helper definitions used to state the engine claims -/

/-- Whether a condition evaluation came back `True` without raising. -/
def isOkTrue : Except String Bool → Bool
  | .ok true => true
  | _ => false

/-- The claimed `apply_all=true` behaviour: walk the entire (sorted) rule
list, applying every matching rule to the progressively mutated record. -/
def applyAllFold : List RuleM → Record → Heap → Except String (Record × Heap)
  | [], r, h => .ok (r, h)
  | rule :: rest, r, h =>
      match ruleMatches rule h r with
      | .error e => .error e
      | .ok false => applyAllFold rest r h
      | .ok true =>
          match ruleApply rule r h with
          | .error e => .error e
          | .ok rh => applyAllFold rest rh.1 rh.2

/-- Whether a rule's action is an `add_tag` action (the only action kind
that writes through a shared reference instead of the copied top level). -/
def actionIsAddTag : ActionObj → Bool
  | .adict a => a.atype == some "add_tag"
  | .nonDict _ => false

/-- An `add_tag` rule with the given tag and an always-true condition. -/
def mkTagRule (nm : String) (tag : Value) (prio : Int) : RuleM :=
  ⟨nm, .cdict [], .adict ⟨some "add_tag", none, none, none, some tag, none, none⟩, prio⟩

/-- The heap component of a successful engine result. -/
def exceptHeap : Except String (Record × Heap) → Option Heap
  | .ok rh => some rh.2
  | .error _ => none

/-! ## Support lemmas -/

theorem dget_dset_self {α : Type} (r : List (String × α)) (k : String) (v : α) :
    dget (dset r k v) k = some v := by
  induction r with
  | nil => simp [dset, dget]
  | cons p rest ih =>
      obtain ⟨k1, v1⟩ := p
      by_cases h : k1 = k
      · simp [dset, h, dget]
      · simp [dset, h, dget, ih]

theorem dget_dset_ne {α : Type} (r : List (String × α)) (k k2 : String) (v : α)
    (hne : k ≠ k2) : dget (dset r k v) k2 = dget r k2 := by
  induction r with
  | nil => simp [dset, dget, hne]
  | cons p rest ih =>
      obtain ⟨k1, v1⟩ := p
      by_cases h : k1 = k
      · subst h
        simp [dset, dget, hne]
      · simp [dset, h, dget, ih]

theorem dhas_dset {α : Type} (r : List (String × α)) (k k2 : String) (v : α) :
    dhas (dset r k v) k2 = (dhas r k2 || decide (k = k2)) := by
  by_cases h : k = k2
  · subst h
    simp [dhas, dget_dset_self]
  · simp [dhas, dget_dset_ne r k k2 v h, h]

theorem dropWhile_length_le (p : Char → Bool) (l : List Char) :
    (l.dropWhile p).length ≤ l.length := by
  induction l with
  | nil => simp
  | cons c cs ih =>
      rw [List.dropWhile_cons]
      by_cases h : p c = true
      · rw [if_pos h]
        exact le_trans ih (by simp)
      · rw [if_neg h]

theorem pyStrip_length_le (t : List Char) : (pyStrip t).length ≤ t.length := by
  unfold pyStrip
  rw [List.length_reverse]
  refine le_trans (dropWhile_length_le _ _) ?_
  rw [List.length_reverse]
  exact dropWhile_length_le _ _

/-! Sorting: membership, descending order, stability. -/

theorem mem_insertDescBy {α : Type} (key : α → Int) (x y : α) (l : List α) :
    y ∈ insertDescBy key x l ↔ y = x ∨ y ∈ l := by
  induction l with
  | nil => simp [insertDescBy]
  | cons z zs ih =>
      by_cases h : key z ≤ key x
      · simp [insertDescBy, h]
      · simp only [insertDescBy, if_neg h, List.mem_cons, ih]
        tauto

theorem mem_sortDescBy {α : Type} (key : α → Int) (x : α) (l : List α) :
    x ∈ sortDescBy key l ↔ x ∈ l := by
  induction l with
  | nil => simp [sortDescBy]
  | cons z zs ih =>
      show x ∈ insertDescBy key z (sortDescBy key zs) ↔ _
      rw [mem_insertDescBy, ih]
      simp

theorem insertDescBy_pairwise {α : Type} (key : α → Int) (x : α) (l : List α)
    (hl : List.Pairwise (fun a b => key b ≤ key a) l) :
    List.Pairwise (fun a b => key b ≤ key a) (insertDescBy key x l) := by
  induction l with
  | nil => simp [insertDescBy]
  | cons z zs ih =>
      rcases List.pairwise_cons.mp hl with ⟨hz, hzs⟩
      by_cases h : key z ≤ key x
      · rw [insertDescBy, if_pos h]
        refine List.pairwise_cons.mpr ⟨?_, hl⟩
        intro b hb
        rcases List.mem_cons.mp hb with rfl | hb2
        · exact h
        · exact le_trans (hz b hb2) h
      · rw [insertDescBy, if_neg h]
        refine List.pairwise_cons.mpr ⟨?_, ih hzs⟩
        intro b hb
        rcases (mem_insertDescBy key x b zs).mp hb with rfl | hb2
        · exact le_of_lt (lt_of_not_le h)
        · exact hz b hb2

theorem sortDescBy_pairwise {α : Type} (key : α → Int) (l : List α) :
    List.Pairwise (fun a b => key b ≤ key a) (sortDescBy key l) := by
  induction l with
  | nil => simp [sortDescBy]
  | cons z zs ih => exact insertDescBy_pairwise key z _ ih

theorem filter_insertDescBy {α : Type} (key : α → Int) (x : α) (l : List α) (p : Int) :
    (insertDescBy key x l).filter (fun a => key a == p)
      = (x :: l).filter (fun a => key a == p) := by
  induction l with
  | nil => rfl
  | cons z zs ih =>
      by_cases h : key z ≤ key x
      · rw [insertDescBy, if_pos h]
      · rw [insertDescBy, if_neg h]
        by_cases hx : key x == p
        · have hz : (key z == p) = false := by
            have hxp : key x = p := by simpa using hx
            have : key z ≠ p := by
              intro hzp
              exact h (by omega)
            simpa using this
          simp only [List.filter_cons, hz, hx, cond_false, cond_true] at *
          rw [ih]
          simp [List.filter_cons, hx]
        · have hx2 : (key x == p) = false := by simpa using hx
          simp only [List.filter_cons, hx2, cond_false] at *
          rw [ih]
          simp [List.filter_cons, hx2]

theorem sortDescBy_stable {α : Type} (key : α → Int) (l : List α) (p : Int) :
    (sortDescBy key l).filter (fun a => key a == p)
      = l.filter (fun a => key a == p) := by
  induction l with
  | nil => rfl
  | cons z zs ih =>
      show (insertDescBy key z (sortDescBy key zs)).filter _ = _
      rw [filter_insertDescBy]
      simp only [List.filter_cons]
      rw [ih]

/-! The scan for the winning pair. -/

theorem findPatMatch_wf (ps : List Pattern) (t : List Char) (m : RMatch)
    (h : findPatMatch ps t = some m) : m.mstart < m.mstop ∧ m.mstop ≤ t.length := by
  induction ps with
  | nil => exact Option.noConfusion h
  | cons q qs ih =>
      unfold findPatMatch at h
      cases hq : q.search t with
      | some m2 =>
          rw [hq] at h
          injection h with h2
          subst h2
          exact q.wf t _ hq
      | none =>
          rw [hq] at h
          exact ih h

theorem findRuleMatch_wf (rs : List ContentRule) (t : List Char)
    (r : ContentRule) (m : RMatch) (h : findRuleMatch rs t = some (r, m)) :
    m.mstart < m.mstop ∧ m.mstop ≤ t.length := by
  induction rs with
  | nil => exact Option.noConfusion h
  | cons r2 rest ih =>
      unfold findRuleMatch at h
      cases hq : findPatMatch r2.patterns t with
      | some m2 =>
          rw [hq] at h
          injection h with h2
          rw [Prod.ext_iff] at h2
          obtain ⟨h3, h4⟩ := h2
          simp only at h3 h4
          subst h4
          exact findPatMatch_wf _ _ _ hq
      | none =>
          rw [hq] at h
          exact ih h

theorem findPatMatch_none_of (ps : List Pattern) (t : List Char)
    (h : ∀ p ∈ ps, p.search t = none) : findPatMatch ps t = none := by
  induction ps with
  | nil => rfl
  | cons q qs ih =>
      unfold findPatMatch
      rw [h q (List.mem_cons_self q qs)]
      exact ih fun p hp => h p (List.mem_cons_of_mem q hp)

theorem findRuleMatch_none_of (rs : List ContentRule) (t : List Char)
    (h : ∀ r ∈ rs, findPatMatch r.patterns t = none) : findRuleMatch rs t = none := by
  induction rs with
  | nil => rfl
  | cons r rest ih =>
      unfold findRuleMatch
      rw [h r (List.mem_cons_self r rest)]
      exact ih fun r2 hr => h r2 (List.mem_cons_of_mem r hr)

theorem findPatMatch_first (ps : List Pattern) (t : List Char) (m : RMatch)
    (h : findPatMatch ps t = some m) :
    ∃ ppre q ppost, ps = ppre ++ q :: ppost ∧
      (∀ q2 ∈ ppre, q2.search t = none) ∧ q.search t = some m := by
  induction ps with
  | nil => exact Option.noConfusion h
  | cons q qs ih =>
      unfold findPatMatch at h
      cases hq : q.search t with
      | some m2 =>
          rw [hq] at h
          injection h with h2
          subst h2
          exact ⟨[], q, qs, rfl, by simp, hq⟩
      | none =>
          rw [hq] at h
          obtain ⟨ppre, q2, ppost, heq, hpre, hq2⟩ := ih h
          refine ⟨q :: ppre, q2, ppost, by rw [heq]; rfl, ?_, hq2⟩
          intro q3 hq3
          rcases List.mem_cons.mp hq3 with rfl | hq4
          · exact hq
          · exact hpre q3 hq4

theorem findRuleMatch_first (rs : List ContentRule) (t : List Char)
    (r : ContentRule) (m : RMatch) (h : findRuleMatch rs t = some (r, m)) :
    ∃ pre post, rs = pre ++ r :: post ∧
      (∀ r2 ∈ pre, findPatMatch r2.patterns t = none) ∧
      findPatMatch r.patterns t = some m := by
  induction rs with
  | nil => exact Option.noConfusion h
  | cons r2 rest ih =>
      unfold findRuleMatch at h
      cases hq : findPatMatch r2.patterns t with
      | some m2 =>
          rw [hq] at h
          injection h with h2
          rw [Prod.ext_iff] at h2
          obtain ⟨h3, h4⟩ := h2
          simp only at h3 h4
          subst h3
          subst h4
          exact ⟨[], rest, rfl, by simp, hq⟩
      | none =>
          rw [hq] at h
          obtain ⟨pre, post, heq, hpre, hr⟩ := ih h
          refine ⟨r2 :: pre, post, by rw [heq]; rfl, ?_, hr⟩
          intro r3 hr3
          rcases List.mem_cons.mp hr3 with rfl | hr4
          · exact hq
          · exact hpre r3 hr4

/-! Fuel is irrelevant once it exceeds the text length: every recursive
call of the segmenter is on a strictly shorter text. -/

theorem plcStep_congr (rules : List ContentRule) (rec1 rec2 : List Char → List SegDict)
    (t : List Char) (hrec : ∀ u, u.length < t.length → rec1 u = rec2 u) :
    plcStep rules rec1 t = plcStep rules rec2 t := by
  unfold plcStep
  by_cases ht : t = []
  · rw [if_pos ht, if_pos ht]
  · rw [if_neg ht, if_neg ht]
    split
    · rfl
    · rename_i r m hm
      obtain ⟨hs, he⟩ := findRuleMatch_wf _ _ _ _ hm
      have htl : 1 ≤ t.length := by
        cases t with
        | nil => exact absurd rfl ht
        | cons c cs => simp
      have hbefore : (pyStrip (t.take m.mstart)).length < t.length := by
        refine lt_of_le_of_lt (pyStrip_length_le _) ?_
        rw [List.length_take]
        omega
      have hafter : (pyStrip (t.drop m.mstop)).length < t.length := by
        refine lt_of_le_of_lt (pyStrip_length_le _) ?_
        rw [List.length_drop]
        omega
      have e1 : (if pyStrip (t.take m.mstart) = [] then ([] : List SegDict)
            else rec1 (pyStrip (t.take m.mstart)))
          = (if pyStrip (t.take m.mstart) = [] then []
            else rec2 (pyStrip (t.take m.mstart))) := by
        by_cases hb : pyStrip (t.take m.mstart) = []
        · rw [if_pos hb, if_pos hb]
        · rw [if_neg hb, if_neg hb, hrec _ hbefore]
      have e2 : (if pyStrip (t.drop m.mstop) = [] then ([] : List SegDict)
            else rec1 (pyStrip (t.drop m.mstop)))
          = (if pyStrip (t.drop m.mstop) = [] then []
            else rec2 (pyStrip (t.drop m.mstop))) := by
        by_cases hb : pyStrip (t.drop m.mstop) = []
        · rw [if_pos hb, if_pos hb]
        · rw [if_neg hb, if_neg hb, hrec _ hafter]
      cases r.matchKind with
      | enclosedM => rw [e1, e2]
      | prefixM => rw [e1]
      | suffixM => rw [e2]

theorem parseLineContentF_congr (rules : List ContentRule) :
    ∀ f1 f2 : Nat, ∀ t : List Char, t.length < f1 → t.length < f2 →
      parseLineContentF rules f1 t = parseLineContentF rules f2 t := by
  intro f1
  induction f1 using Nat.strong_induction_on with
  | _ f1 ih =>
      intro f2 t h1 h2
      cases f1 with
      | zero => exact absurd h1 (by omega)
      | succ a =>
          cases f2 with
          | zero => exact absurd h2 (by omega)
          | succ b =>
              show plcStep rules (parseLineContentF rules a) t
                  = plcStep rules (parseLineContentF rules b) t
              refine plcStep_congr rules _ _ t ?_
              intro u hu
              exact ih a (Nat.lt_succ_self a) b u (by omega) (by omega)

theorem parseLineContentF_eq (rules : List ContentRule) (f : Nat) (t : List Char)
    (hf : t.length < f) : parseLineContentF rules f t = parseLineContent rules t :=
  parseLineContentF_congr rules f (t.length + 1) t hf (Nat.lt_succ_self _)

theorem parseLineContent_step (rules : List ContentRule) (t : List Char) :
    parseLineContent rules t = plcStep rules (parseLineContentF rules t.length) t := rfl

/-! Group-field extraction. -/

theorem addGroupFields_cons (e : SegDict) (n : String) (ns : List String)
    (g : Option (List Char)) (gs : List (Option (List Char))) :
    addGroupFields e (n :: ns) (g :: gs)
      = addGroupFields (dset e n (groupVal g)) ns gs := rfl

theorem dhas_addGroupFields (names : List String) :
    ∀ (gs : List (Option (List Char))) (e : SegDict) (k : String),
      dhas (addGroupFields e names gs) k
        = (dhas e k || (names.zip gs).any fun ng => ng.1 == k) := by
  induction names with
  | nil => intro gs e k; simp [addGroupFields]
  | cons n ns ih =>
      intro gs e k
      cases gs with
      | nil => simp [addGroupFields]
      | cons g gs2 =>
          rw [addGroupFields_cons, ih gs2]
          rw [dhas_dset]
          by_cases hnk : n = k
          · simp [hnk]
          · have hb : (n == k) = false := beq_eq_false_iff_ne.mpr hnk
            simp [hnk, hb]

theorem dget_addGroupFields_not_mem (l : List (String × Option (List Char))) (k : String)
    (hk : ∀ ng ∈ l, ng.1 ≠ k) :
    ∀ e : SegDict, dget (l.foldl (fun e2 ng => dset e2 ng.1 (groupVal ng.2)) e) k
      = dget e k := by
  induction l with
  | nil => intro e; rfl
  | cons ng rest ih =>
      intro e
      rw [List.foldl_cons, ih (fun p hp => hk p (List.mem_cons_of_mem ng hp))]
      exact dget_dset_ne _ _ _ _ (hk ng (List.mem_cons_self ng rest))

theorem dget_addGroupFields_pos (names : List String) :
    ∀ (gs : List (Option (List Char))) (e : SegDict) (i : Nat)
      (hn : i < names.length) (hg : i < gs.length), names.Nodup →
      dget (addGroupFields e names gs) (names.get ⟨i, hn⟩)
        = some (groupVal (gs.get ⟨i, hg⟩)) := by
  induction names with
  | nil => intro gs e i hn; exact absurd hn (by simp)
  | cons n ns ih =>
      intro gs e i hn hg hnd
      cases gs with
      | nil => exact absurd hg (by simp)
      | cons g gs2 =>
          cases i with
          | zero =>
              rw [addGroupFields_cons]
              show dget (addGroupFields (dset e n (groupVal g)) ns gs2) n = some (groupVal g)
              have hnotin : ∀ ng ∈ ns.zip gs2, ng.1 ≠ n := by
                intro ng hng hcontra
                have hmem : ng.1 ∈ ns := (List.of_mem_zip hng).1
                rw [hcontra] at hmem
                exact (List.nodup_cons.mp hnd).1 hmem
              rw [show addGroupFields (dset e n (groupVal g)) ns gs2
                    = (ns.zip gs2).foldl (fun e2 ng => dset e2 ng.1 (groupVal ng.2))
                        (dset e n (groupVal g)) from rfl]
              rw [dget_addGroupFields_not_mem _ _ hnotin]
              exact dget_dset_self e n (groupVal g)
          | succ j =>
              rw [addGroupFields_cons]
              have hn2 : j < ns.length := by simpa using hn
              have hg2 : j < gs2.length := by simpa using hg
              have := ih gs2 (dset e n (groupVal g)) j hn2 hg2 (List.nodup_cons.mp hnd).2
              simpa using this

/-! Metadata extraction. -/

theorem dhas_buildMetadataGo (k : String) :
    ∀ (l : List (String × Option (List Char))) (init md : List (String × List Char)),
      buildMetadataGo init l = .ok md →
      dhas md k = (dhas init k || l.any fun ng => ng.1 == k) := by
  intro l
  induction l with
  | nil =>
      intro init md h
      injection h with h2
      subst h2
      simp
  | cons ng rest ih =>
      intro init md h
      unfold buildMetadataGo at h
      cases hg : ng.2 with
      | none =>
          rw [hg] at h
          exact Except.noConfusion h
      | some s =>
          rw [hg] at h
          rw [ih _ _ h, dhas_dset]
          by_cases hnk : ng.1 = k
          · simp [hnk]
          · have hb : (ng.1 == k) = false := beq_eq_false_iff_ne.mpr hnk
            simp [hnk, hb]

/-- Unfolding of one parse step when an enclosed rule wins: stated over an
arbitrary recursion function, then specialised to the parser itself. -/
theorem plcStep_enclosed (rules : List ContentRule) (rec : List Char → List SegDict)
    (t : List Char) (r : ContentRule) (m : RMatch) (ht : t ≠ [])
    (hm : findRuleMatch (sortDescBy crPriority rules) t = some (r, m))
    (hk : r.matchKind = .enclosedM) :
    plcStep rules rec t =
      (if pyStrip (t.take m.mstart) = [] then []
       else rec (pyStrip (t.take m.mstart)))
      ++ [mkSegEntry r m (pyStrip ((t.drop m.mstart).take (m.mstop - m.mstart)))]
      ++ (if pyStrip (t.drop m.mstop) = [] then []
          else rec (pyStrip (t.drop m.mstop))) := by
  unfold plcStep
  rw [if_neg ht]
  split
  · rename_i hnone
    rw [hm] at hnone
    exact Option.noConfusion hnone
  · rename_i r2 m2 heq
    rw [hm] at heq
    injection heq with h2
    injection h2 with hr2 hm2
    subst hr2
    subst hm2
    cases hmk : r.matchKind with
    | enclosedM => rfl
    | prefixM => rw [hmk] at hk; exact MatchKind.noConfusion hk
    | suffixM => rw [hmk] at hk; exact MatchKind.noConfusion hk

/-! ## Claim theorems -/

/-- C1: the segmenter chooses the winning (rule, pattern) pair by visiting
content rules in descending priority (stable sort, so ties keep declaration
order) and each rule's patterns in declared order, taking the first pair
whose pattern matches anywhere in the text regardless of offset; with rules
A (priority 10, pattern `bar`) and B (priority 90, pattern `baz`) over
`foobarbaz`, the `baz` match of B wins the scan even though `bar` occurs
earlier in the string. -/
theorem priority_scan_order :
    (∀ rules : List ContentRule,
        List.Pairwise (fun a b => crPriority b ≤ crPriority a)
          (sortDescBy crPriority rules)) ∧
    (∀ (rules : List ContentRule) (p : Int),
        (sortDescBy crPriority rules).filter (fun r => crPriority r == p)
          = rules.filter (fun r => crPriority r == p)) ∧
    (∀ (rs : List ContentRule) (t : List Char) (r : ContentRule) (m : RMatch),
        findRuleMatch rs t = some (r, m) →
          ∃ pre post, rs = pre ++ r :: post ∧
            (∀ r2 ∈ pre, findPatMatch r2.patterns t = none) ∧
            ∃ ppre q ppost, r.patterns = ppre ++ q :: ppost ∧
              (∀ q2 ∈ ppre, q2.search t = none) ∧ q.search t = some m) ∧
    (findRuleMatch (sortDescBy crPriority [ruleA, ruleB]) fooText).map
        (fun pr => (pr.1.rtype, pr.2.mstart, pr.2.mstop)) = some ("B", 6, 9) ∧
    parseLineContent [ruleA, ruleB] fooText =
      [[("type", "unknown".toList), ("content", "foo".toList)],
       [("type", "A".toList), ("content", "bar".toList)],
       [("type", "B".toList), ("content", "baz".toList)]] := by
  refine ⟨sortDescBy_pairwise crPriority,
    fun rules p => sortDescBy_stable crPriority rules p, ?_, rfl, rfl⟩
  intro rs t r m h
  obtain ⟨pre, post, heq, hpre, hpat⟩ := findRuleMatch_first rs t r m h
  obtain ⟨ppre, q, ppost, heq2, hppre, hq⟩ := findPatMatch_first _ _ _ hpat
  exact ⟨pre, post, heq, hpre, ppre, q, ppost, heq2, hppre, hq⟩

/-- Witness for C1: the first-pair-wins characterisation instantiated on
the two concrete rules, scanning `foobarbaz`. -/
theorem priority_scan_order_witness :
    ∃ pre post, ([ruleB, ruleA] : List ContentRule) = pre ++ ruleB :: post ∧
      (∀ r2 ∈ pre, findPatMatch r2.patterns fooText = none) ∧
      ∃ ppre q ppost, ruleB.patterns = ppre ++ q :: ppost ∧
        (∀ q2 ∈ ppre, q2.search fooText = none) ∧
        q.search fooText = some ⟨6, 9, []⟩ :=
  priority_scan_order.2.2.1 [ruleB, ruleA] fooText ruleB ⟨6, 9, []⟩ rfl

/-- C8: when no content rule's pattern matches anywhere in a non-empty
text, segmentation returns exactly one `unknown` segment carrying the whole
text verbatim, with no group fields and no recursion. -/
theorem no_match_fallback (rules : List ContentRule) (t : List Char)
    (ht : t ≠ []) (hnone : ∀ r ∈ rules, ∀ p ∈ r.patterns, p.search t = none) :
    parseLineContent rules t = [[("type", "unknown".toList), ("content", t)]] := by
  have hfp : ∀ r ∈ sortDescBy crPriority rules, findPatMatch r.patterns t = none := by
    intro r hr
    exact findPatMatch_none_of _ _ (hnone r ((mem_sortDescBy crPriority r rules).mp hr))
  have hrm : findRuleMatch (sortDescBy crPriority rules) t = none :=
    findRuleMatch_none_of _ _ hfp
  rw [parseLineContent_step]
  unfold plcStep
  rw [if_neg ht, hrm]

/-- Witness for C8 at a concrete input (no rules at all, text `hi`). -/
theorem no_match_fallback_witness :
    parseLineContent [] "hi".toList
      = [[("type", "unknown".toList), ("content", "hi".toList)]] :=
  no_match_fallback [] "hi".toList (by decide)
    (fun r hr => absurd hr (List.not_mem_nil r))

/-- C3 counterexample: on the text `x [a]` with one enclosed rule matching
the literal `[a]` at span `[2,5)`, the code strips the surrounding parts
before recursing, so the output differs from the claimed
`segment(text[0:s]) ++ [segment of text[s:e]] ++ segment(text[e:])`
decomposition: the first emitted segment has content `x`, not `x `. -/
theorem enclosed_verbatim_cex :
    findRuleMatch (sortDescBy crPriority [ruleEncl]) exText
      = some (ruleEncl, ⟨2, 5, []⟩) ∧
    parseLineContent [ruleEncl] exText ≠
      parseLineContent [ruleEncl] (exText.take 2)
        ++ [[("type", "E".toList), ("content", (exText.drop 2).take 3)]]
        ++ parseLineContent [ruleEncl] (exText.drop 5) :=
  ⟨rfl, by decide⟩

/-- C3 amended: when an enclosed-discipline rule wins with span `[s,e)`,
the result is the recursive segmentation of `strip(text[0:s])` (omitted
when the strip is empty), then one segment of the rule's type whose content
is `strip(text[s:e])` with fields from the captures, then the recursive
segmentation of `strip(text[e:])` (omitted when empty). -/
theorem enclosed_strip_segmentation (rules : List ContentRule) (t : List Char)
    (r : ContentRule) (m : RMatch) (ht : t ≠ [])
    (hm : findRuleMatch (sortDescBy crPriority rules) t = some (r, m))
    (hk : r.matchKind = .enclosedM) :
    parseLineContent rules t =
      (if pyStrip (t.take m.mstart) = [] then []
       else parseLineContent rules (pyStrip (t.take m.mstart)))
      ++ [mkSegEntry r m (pyStrip ((t.drop m.mstart).take (m.mstop - m.mstart)))]
      ++ (if pyStrip (t.drop m.mstop) = [] then []
          else parseLineContent rules (pyStrip (t.drop m.mstop))) := by
  obtain ⟨hs, he⟩ := findRuleMatch_wf _ _ _ _ hm
  have htl : 1 ≤ t.length := by
    cases t with
    | nil => exact absurd rfl ht
    | cons c cs => simp
  have hbefore : (pyStrip (t.take m.mstart)).length < t.length := by
    refine lt_of_le_of_lt (pyStrip_length_le _) ?_
    rw [List.length_take]
    omega
  have hafter : (pyStrip (t.drop m.mstop)).length < t.length := by
    refine lt_of_le_of_lt (pyStrip_length_le _) ?_
    rw [List.length_drop]
    omega
  rw [parseLineContent_step]
  rw [plcStep_enclosed rules _ t r m ht hm hk]
  rw [parseLineContentF_eq rules t.length _ hbefore,
      parseLineContentF_eq rules t.length _ hafter]

/-- Witness for C3's amended statement on the concrete enclosed example. -/
theorem enclosed_strip_segmentation_witness :
    parseLineContent [ruleEncl] exText =
      (if pyStrip (exText.take 2) = [] then []
       else parseLineContent [ruleEncl] (pyStrip (exText.take 2)))
      ++ [mkSegEntry ruleEncl ⟨2, 5, []⟩ (pyStrip ((exText.drop 2).take 3))]
      ++ (if pyStrip (exText.drop 5) = [] then []
          else parseLineContent [ruleEncl] (pyStrip (exText.drop 5))) :=
  enclosed_strip_segmentation [ruleEncl] exText ruleEncl ⟨2, 5, []⟩
    (by decide) rfl rfl

/-- C5 counterexample: a content rule with group names `a`, `b` over a
pattern exposing a single capture produces a segment in which `b` is
absent, not bound to the empty string as the claim asserts. -/
theorem extra_group_names_cex :
    parseLineContent [ruleC5] "xy".toList
      = [[("type", "R".toList), ("content", "xy".toList), ("a", "x".toList)]] ∧
    dget [("type", "R".toList), ("content", "xy".toList), ("a", "x".toList)] "b"
      = none ∧
    ruleC5.groups = ["a", "b"] :=
  ⟨rfl, rfl, rfl⟩

/-- C5 amended: extraction always succeeds for content rules; group names
beyond the pattern's capture count are omitted from the segment dict, while
an in-range capture that is `None` or empty yields the empty string.  In
metadata extraction the out-of-range names are likewise skipped, but a
non-participating (`None`) in-range capture raises instead. -/
theorem group_extraction_semantics :
    (∀ (entry : SegDict) (names : List String) (gs : List (Option (List Char)))
        (k : String),
        dhas (addGroupFields entry names gs) k
          = (dhas entry k || (names.zip gs).any fun ng => ng.1 == k)) ∧
    (∀ (entry : SegDict) (names : List String) (gs : List (Option (List Char)))
        (i : Nat) (hn : i < names.length) (hg : i < gs.length), names.Nodup →
        dget (addGroupFields entry names gs) (names.get ⟨i, hn⟩)
          = some (groupVal (gs.get ⟨i, hg⟩))) ∧
    groupVal none = [] ∧
    groupVal (some []) = [] ∧
    (∀ (names : List String) (gs : List (Option (List Char)))
        (md : List (String × List Char)) (k : String),
        buildMetadata names gs = .ok md →
        dhas md k = (dhas [("type", "metadata".toList)] k
          || (names.zip gs).any fun ng => ng.1 == k)) ∧
    buildMetadata ["a"] [none] = .error "AttributeError" := by
  refine ⟨fun e ns gs k => dhas_addGroupFields ns gs e k,
    fun e ns gs i hn hg hnd => dget_addGroupFields_pos ns gs e i hn hg hnd,
    rfl, rfl, ?_, rfl⟩
  intro names gs md k h
  exact dhas_buildMetadataGo k (names.zip gs) _ md h

/-- Witness for C5's amended statement: the in-range group name `a` of the
concrete one-capture rule is bound to the stripped capture. -/
theorem group_extraction_semantics_witness :
    dget (addGroupFields [("type", "R".toList), ("content", "xy".toList)]
        ["a", "b"] [some ['x']]) (["a", "b"].get ⟨0, by decide⟩)
      = some (groupVal ([some ['x']].get ⟨0, by decide⟩)) :=
  group_extraction_semantics.2.1 [("type", "R".toList), ("content", "xy".toList)]
    ["a", "b"] [some ['x']] 0 (by decide) (by decide) (by decide)

/-! Branch-evaluation equations for `_check_field_condition`. -/

theorem dgetV_of_not_dhas (data : Record) (f : String) (h : dhas data f = false) :
    dgetV data f = .vNone := by
  unfold dgetV
  unfold dhas at h
  cases hg : dget data f with
  | none => rfl
  | some v => rw [hg] at h; simp at h

theorem checkFieldCond_gt (h : Heap) (data : Record) (f : String)
    (cval : Option Value) (cpat : Option (String → Bool)) :
    checkFieldCond h data f (.spec (some "greater_than") cval cpat)
      = .ok (match pyFloat (dgetV data f), pyFloat (cval.getD .vNone) with
             | some a, some b => decide (b < a)
             | _, _ => false) := rfl

theorem checkFieldCond_lt (h : Heap) (data : Record) (f : String)
    (cval : Option Value) (cpat : Option (String → Bool)) :
    checkFieldCond h data f (.spec (some "less_than") cval cpat)
      = .ok (match pyFloat (dgetV data f), pyFloat (cval.getD .vNone) with
             | some a, some b => decide (a < b)
             | _, _ => false) := rfl

theorem checkFieldCond_contains (h : Heap) (data : Record) (f : String)
    (cval : Option Value) (cpat : Option (String → Bool)) :
    checkFieldCond h data f (.spec (some "contains") cval cpat)
      = (if pyTruthy h (dgetV data f) then
           match cval.getD .vNone with
           | .vStr s => .ok (isSubstr s.toList (pyStr (dgetV data f)).toList)
           | _ => .error "TypeError"
         else .ok false) := rfl

/-- C6 counterexample: a record whose field `f` holds the empty string —
present but falsy — makes a `contains` condition with the empty-string
operand evaluate to `False`, although the operand is a substring of the
stringified value, contradicting the claimed present-implies-substring-test
semantics. -/
theorem contains_falsy_cex :
    dget c6Rec "f" = some (.vStr "") ∧
    isSubstr "".toList (pyStr (Value.vStr "")).toList = true ∧
    checkFieldCond [] c6Rec "f" containsEmpty = .ok false :=
  ⟨rfl, rfl, rfl⟩

/-- C6 amended: a `contains` condition on field `f` is `False` whenever
the looked-up value is missing or falsy (`None`, `""`, `0`, `False`, an
empty list); only for a truthy value is the operand tested as a substring
of the stringified value. -/
theorem contains_truthy_semantics (h : Heap) (data : Record) (f s : String) :
    checkFieldCond h data f (.spec (some "contains") (some (.vStr s)) none)
      = .ok (if pyTruthy h (dgetV data f)
             then isSubstr s.toList (pyStr (dgetV data f)).toList
             else false) := by
  rw [checkFieldCond_contains]
  by_cases hb : pyTruthy h (dgetV data f)
  · rw [if_pos hb, if_pos hb]
    rfl
  · rw [if_neg hb, if_neg hb]

/-- C7: a `greater_than`, `less_than` or `contains` condition on a field
absent from the record evaluates to `False` without raising, and a failed
numeric cast on either side of `greater_than`/`less_than` likewise yields
`False` rather than an error. -/
theorem missing_field_conditions_never_throw (h : Heap) (data : Record)
    (f : String) (cval : Option Value) (cpat : Option (String → Bool)) :
    (dhas data f = false →
      checkFieldCond h data f (.spec (some "greater_than") cval cpat) = .ok false ∧
      checkFieldCond h data f (.spec (some "less_than") cval cpat) = .ok false ∧
      checkFieldCond h data f (.spec (some "contains") cval cpat) = .ok false) ∧
    (pyFloat (dgetV data f) = none ∨ pyFloat (cval.getD .vNone) = none →
      checkFieldCond h data f (.spec (some "greater_than") cval cpat) = .ok false ∧
      checkFieldCond h data f (.spec (some "less_than") cval cpat) = .ok false) := by
  constructor
  · intro habs
    have hv : dgetV data f = .vNone := dgetV_of_not_dhas data f habs
    refine ⟨?_, ?_, ?_⟩
    · rw [checkFieldCond_gt, hv]
      rfl
    · rw [checkFieldCond_lt, hv]
      rfl
    · rw [checkFieldCond_contains, hv]
      rfl
  · intro hcast
    constructor
    · rw [checkFieldCond_gt]
      rcases hcast with hc | hc
      · rw [hc]
      · rw [hc]
        cases pyFloat (dgetV data f) <;> rfl
    · rw [checkFieldCond_lt]
      rcases hcast with hc | hc
      · rw [hc]
      · rw [hc]
        cases pyFloat (dgetV data f) <;> rfl

/-- Witness for C7 on the empty record and a concrete operand. -/
theorem missing_field_never_throw_witness :
    checkFieldCond [] [] "x" (.spec (some "greater_than") (some (.vStr "5")) none)
      = .ok false ∧
    checkFieldCond [] [] "x" (.spec (some "less_than") (some (.vStr "5")) none)
      = .ok false ∧
    checkFieldCond [] [] "x" (.spec (some "contains") (some (.vStr "5")) none)
      = .ok false :=
  (missing_field_conditions_never_throw [] [] "x" (some (.vStr "5")) none).1 rfl

/-- C9: a generic rule whose condition dict is empty matches every record
(the conjunction over zero conditions is vacuously true), a non-dict
condition object never matches, and the engine therefore applies the
empty-condition rule's action to any record it processes. -/
theorem empty_condition_matches_all (h : Heap) (data : Record) (nm : String)
    (act : ActionObj) (prio : Int) (v : Value) (aa : Bool) :
    ruleMatches ⟨nm, .cdict [], act, prio⟩ h data = .ok true ∧
    ruleMatches ⟨nm, .nonDict v, act, prio⟩ h data = .ok false ∧
    processGo [⟨nm, .cdict [], act, prio⟩] data aa h
      = ruleApply ⟨nm, .cdict [], act, prio⟩ data h := by
  refine ⟨rfl, rfl, ?_⟩
  show (match ruleApply ⟨nm, .cdict [], act, prio⟩ data h with
        | .error e => .error e
        | .ok rh => if aa then processGo [] rh.1 aa rh.2 else .ok rh)
      = ruleApply ⟨nm, .cdict [], act, prio⟩ data h
  cases hra : ruleApply ⟨nm, .cdict [], act, prio⟩ data h with
  | error e => rfl
  | ok rh => cases aa <;> rfl

/-- C4: with `apply_all=false` the engine applies exactly the first
matching rule of the sorted list and stops (later rules are not evaluated);
with `apply_all=true` it walks the whole sorted list applying every
matching rule to the progressively mutated record; on the three
`type == "test"` rules with priorities 10/50/100 setting `processed_by` to
distinct literals, the `false` mode ends with the priority-100 literal and
the `true` mode with the priority-10 literal. -/
theorem apply_all_semantics :
    (∀ (rules : List RuleM) (r : Record) (h : Heap),
        (∀ rule ∈ rules, ∃ b, ruleMatches rule h r = .ok b) →
        processGo rules r false h =
          match rules.find? (fun rule => isOkTrue (ruleMatches rule h r)) with
          | none => .ok (r, h)
          | some rule => ruleApply rule r h) ∧
    (∀ (rules : List RuleM) (r : Record) (h : Heap),
        processGo rules r true h = applyAllFold rules r h) ∧
    engineProcess [ruleP10, ruleP50, ruleP100] c4Rec false []
      = .ok ([("type", .vStr "test"), ("processed_by", .vStr "p100")], []) ∧
    engineProcess [ruleP10, ruleP50, ruleP100] c4Rec true []
      = .ok ([("type", .vStr "test"), ("processed_by", .vStr "p10")], []) := by
  refine ⟨?_, ?_, rfl, rfl⟩
  · intro rules r h hok
    induction rules with
    | nil => rfl
    | cons rule rest ih =>
        unfold processGo
        cases hb : ruleMatches rule h r with
        | error e =>
            obtain ⟨b, hbb⟩ := hok rule (List.mem_cons_self rule rest)
            rw [hb] at hbb
            exact Except.noConfusion hbb
        | ok b =>
            cases b with
            | false =>
                have hfa : isOkTrue (ruleMatches rule h r) = false := by
                  rw [hb]; rfl
                have hrhs : List.find? (fun rl => isOkTrue (ruleMatches rl h r))
                    (rule :: rest)
                    = List.find? (fun rl => isOkTrue (ruleMatches rl h r)) rest := by
                  have hne : ¬ ((fun rl => isOkTrue (ruleMatches rl h r)) rule = true) := by
                    simp [hfa]
                  exact List.find?_cons_of_neg rest hne
                rw [hrhs, ← ih (fun r2 hr2 => hok r2 (List.mem_cons_of_mem rule hr2))]
            | true =>
                have hfa : isOkTrue (ruleMatches rule h r) = true := by
                  rw [hb]; rfl
                have hrhs : List.find? (fun rl => isOkTrue (ruleMatches rl h r))
                    (rule :: rest) = some rule := by
                  have hpos : (fun rl => isOkTrue (ruleMatches rl h r)) rule = true := hfa
                  exact List.find?_cons_of_pos rest hpos
                rw [hrhs]
                have hm2 : (match some rule with
                    | none => Except.ok (r, h)
                    | some rl => ruleApply rl r h) = ruleApply rule r h := rfl
                rw [hm2]
                cases hra : ruleApply rule r h with
                | error e => rfl
                | ok rh => rfl
  · intro rules r h
    induction rules generalizing r h with
    | nil => rfl
    | cons rule rest ih =>
        unfold processGo applyAllFold
        cases hb : ruleMatches rule h r with
        | error e => rfl
        | ok b =>
            cases b with
            | false => exact ih r h
            | true =>
                cases hra : ruleApply rule r h with
                | error e => rfl
                | ok rh => exact ih rh.1 rh.2

/-- Witness for C4's first-match characterisation on a concrete rule. -/
theorem apply_all_semantics_witness :
    processGo [ruleP100] c4Rec false [] =
      match [ruleP100].find? (fun rule => isOkTrue (ruleMatches rule [] c4Rec)) with
      | none => .ok (c4Rec, [])
      | some rule => ruleApply rule c4Rec [] :=
  apply_all_semantics.1 [ruleP100] c4Rec []
    (fun rule hr => by
      rw [List.mem_singleton] at hr
      subst hr
      exact ⟨true, rfl⟩)

/-! `C2`: the shallow copy. -/

theorem ruleApply_exceptHeap (rule : RuleM) (rec : Record) (hp : Heap)
    (hnt : actionIsAddTag rule.action = false) :
    exceptHeap (ruleApply rule rec hp) = some hp := by
  unfold ruleApply
  cases hact : rule.action with
  | nonDict v => rfl
  | adict a =>
      rw [hact] at hnt
      unfold actionIsAddTag at hnt
      repeat' split
      all_goals first
        | rfl
        | (exfalso; simp_all)

theorem ruleApply_heap_invariant (rule : RuleM) (rec : Record) (hp : Heap)
    (hnt : actionIsAddTag rule.action = false) :
    ∃ rec2, ruleApply rule rec hp = .ok (rec2, hp) := by
  have h2 := ruleApply_exceptHeap rule rec hp hnt
  cases hra : ruleApply rule rec hp with
  | error e =>
      rw [hra] at h2
      exact Option.noConfusion h2
  | ok rh =>
      rw [hra] at h2
      injection h2 with h3
      refine ⟨rh.1, ?_⟩
      rw [← h3]

/-- C2 counterexample: processing a record whose `tags` key holds an
existing (empty) list with an always-matching `add_tag` rule appends to
that very list: the heap cell reachable from the input record changes from
`[]` to `["x"]`, so the argument record is mutated. -/
theorem process_mutates_shared_tags_cex :
    engineProcess [tagRule] c2Rec false c2Heap = .ok (c2Rec, [[Value.vStr "x"]]) ∧
    heapGetCell c2Heap 0 = [] ∧
    heapGetCell [[Value.vStr "x"]] 0 ≠ heapGetCell c2Heap 0 :=
  ⟨rfl, rfl, fun hc => List.cons_ne_nil (Value.vStr "x") [] hc⟩

/-- C2 amended: `process` copies only the top level — for every rule list
whose actions are not `add_tag`, a successful `process` leaves the heap
(and hence everything the input record can reach) unchanged; an `add_tag`
action on a record whose `tags` key already holds a list appends the tag to
that shared list in place, so the input record observes the new tag. -/
theorem process_shallow_copy_semantics :
    (∀ (rules : List RuleM) (r : Record) (aa : Bool) (h : Heap),
        (∀ rule ∈ rules, actionIsAddTag rule.action = false) →
        ∀ r2 h2, processGo rules r aa h = .ok (r2, h2) → h2 = h) ∧
    (∀ (nm : String) (prio : Int) (tag : Value) (rec : Record) (hp : Heap)
        (addr : Nat),
        dget rec "tags" = some (.vRef addr) →
        pyTruthy hp tag = true →
        (heapGetCell hp addr).any (fun e => pyEq e tag) = false →
        ruleApply (mkTagRule nm tag prio) rec hp
          = .ok (rec, heapSetCell hp addr (heapGetCell hp addr ++ [tag]))) := by
  constructor
  · intro rules
    induction rules with
    | nil =>
        intro r aa h hnt r2 h2 hok
        injection hok with h3
        injection h3 with h4 h5
        exact h5.symm
    | cons rule rest ih =>
        intro r aa h hnt r2 h2 hok
        unfold processGo at hok
        cases hb : ruleMatches rule h r with
        | error e => rw [hb] at hok; exact Except.noConfusion hok
        | ok b =>
            rw [hb] at hok
            cases b with
            | false =>
                exact ih r aa h (fun r3 hr3 => hnt r3 (List.mem_cons_of_mem rule hr3))
                  r2 h2 hok
            | true =>
                obtain ⟨rec2, hra⟩ := ruleApply_heap_invariant rule r h
                  (hnt rule (List.mem_cons_self rule rest))
                rw [hra] at hok
                cases aa with
                | false =>
                    injection hok with h3
                    injection h3 with h4 h5
                    exact h5.symm
                | true =>
                    exact ih rec2 true h
                      (fun r3 hr3 => hnt r3 (List.mem_cons_of_mem rule hr3)) r2 h2 hok
  · intro nm prio tag rec hp addr hdget htru hmem
    have hdhas : dhas rec "tags" = true := by
      unfold dhas
      rw [hdget]
      rfl
    show (if pyTruthy hp tag = true then
            if dhas rec "tags" = true then tagsAppend rec hp tag
            else tagsAppend (dset rec "tags" (.vRef hp.length)) (hp ++ [[]]) tag
          else .ok (rec, hp))
        = .ok (rec, heapSetCell hp addr (heapGetCell hp addr ++ [tag]))
    rw [if_pos htru, if_pos hdhas]
    unfold tagsAppend
    rw [hdget]
    show (if ((heapGetCell hp addr).any fun e => pyEq e tag) = true
          then Except.ok (rec, hp)
          else Except.ok (rec, heapSetCell hp addr (heapGetCell hp addr ++ [tag])))
        = Except.ok (rec, heapSetCell hp addr (heapGetCell hp addr ++ [tag]))
    rw [if_neg (by rw [hmem]; exact Bool.false_ne_true)]

/-- Witness for C2's amended statement: a non-`add_tag` engine run keeps
the heap, and the concrete `add_tag` run appends through the shared cell. -/
theorem process_shallow_copy_semantics_witness :
    ([] : Heap) = [] ∧
    ruleApply (mkTagRule "tagger" (.vStr "x") 50) c2Rec c2Heap
      = .ok (c2Rec, heapSetCell c2Heap 0 (heapGetCell c2Heap 0 ++ [.vStr "x"])) :=
  ⟨process_shallow_copy_semantics.1 [ruleP100] c4Rec false []
      (fun rule hr => by rw [List.mem_singleton] at hr; subst hr; rfl)
      [("type", .vStr "test"), ("processed_by", .vStr "p100")] [] rfl,
    process_shallow_copy_semantics.2 "tagger" 50 (.vStr "x") c2Rec c2Heap 0
      rfl rfl rfl⟩

/-- C10 counterexample: a rule that sets a `timestamp` field makes the
processor return a token that had no `timestamp` key with
`processed = True` added, contrary to the claim that such tokens come back
without a `processed` key. -/
theorem processed_flag_cex :
    dhas ([] : Record) "timestamp" = false ∧
    processSingleToken [tsRule] [] [] false []
      = .ok ([("timestamp", Value.vInt 1), ("processed", Value.vBool true)], []) ∧
    dget [("timestamp", Value.vInt 1), ("processed", Value.vBool true)] "processed"
      = some (.vBool true) :=
  ⟨rfl, rfl, rfl⟩

/-- C10 amended: the timestamp check runs on the record as it stands after
the rule engine and the custom processors: if that record has a `timestamp`
key the returned record carries `processed = True`, and if it does not, the
record is returned unchanged with no `processed` key added. -/
theorem processed_flag_semantics (rules : List RuleM)
    (procs : List (Record → Record)) (token : Record) (aa : Bool) (h : Heap)
    (inter : Record) (h2 : Heap)
    (hafter : afterRulesProcs rules procs token aa h = .ok (inter, h2)) :
    processSingleToken rules procs token aa h
      = .ok ((if dhas inter "timestamp" then dset inter "processed" (.vBool true)
              else inter), h2) ∧
    (dhas inter "timestamp" = true →
      dget (if dhas inter "timestamp" then dset inter "processed" (.vBool true)
            else inter) "processed" = some (.vBool true)) ∧
    (dhas inter "timestamp" = false →
      processSingleToken rules procs token aa h = .ok (inter, h2)) := by
  unfold afterRulesProcs at hafter
  unfold processSingleToken
  cases hstep : (if rules.length > 0 then engineProcess rules token aa h
      else .ok (token, h)) with
  | error e =>
      rw [hstep] at hafter
      exact Except.noConfusion hafter
  | ok ph =>
      rw [hstep] at hafter
      injection hafter with h3
      injection h3 with h4 h5
      refine ⟨?_, ?_, ?_⟩
      · show Except.ok
            ((if dhas (procs.foldl (fun r f => f r) ph.1) "timestamp" = true
              then dset (procs.foldl (fun r f => f r) ph.1) "processed" (.vBool true)
              else procs.foldl (fun r f => f r) ph.1), ph.2)
          = _
        rw [h4, h5]
      · intro hts
        rw [if_pos hts, dget_dset_self]
      · intro hts
        show Except.ok
            ((if dhas (procs.foldl (fun r f => f r) ph.1) "timestamp" = true
              then dset (procs.foldl (fun r f => f r) ph.1) "processed" (.vBool true)
              else procs.foldl (fun r f => f r) ph.1), ph.2)
          = Except.ok (inter, h2)
        rw [h4, h5, if_neg (by rw [hts]; exact Bool.false_ne_true)]

/-- Witness for C10's amended statement on the timestamp-adding rule. -/
theorem processed_flag_semantics_witness :
    processSingleToken [tsRule] [] [] false []
      = .ok ((if dhas [("timestamp", Value.vInt 1)] "timestamp"
              then dset [("timestamp", Value.vInt 1)] "processed" (.vBool true)
              else [("timestamp", Value.vInt 1)]), []) :=
  (processed_flag_semantics [tsRule] [] [] false [] [("timestamp", Value.vInt 1)]
    [] rfl).1

end CRP
